import Mathlib

/-!
Shallow embedding of the persistent state/transaction core of the
codemirror.next repository (the `state` module prototype in
`src/unnamed/part_000` together with the newer `src/state/src/state.ts`),
with theorems checking the natural-language specification against it.

Positions, offsets and biases are JavaScript numbers used as integers and
are embedded as `Int`.  JavaScript strings are embedded as `List Char`.
-/

/-- Modelled from the spec: the document storage collaborator (`Text`,
imported from `doc/src/text`, whose source is not present under `src/`)
is an opaque immutable sequence providing `length`, `slice(from,to)` and
`replace(from,to,text)` (spec section 6).  It is embedded as a list of
characters. -/
structure Text where
  content : List Char
deriving DecidableEq

/-- Builds a `Text` from a string literal (convenience for concrete tests). -/
def Text.ofString (s : String) : Text :=
  ⟨s.data⟩

/-- Document length provided by the `Text` collaborator. -/
def Text.length (d : Text) : Int :=
  d.content.length

/-- Modelled from the spec: `slice(from,to)` returns the characters of the
half-open interval `[from, to)` of the document. -/
def Text.slice (d : Text) (a b : Int) : List Char :=
  (d.content.drop a.toNat).take (b.toNat - a.toNat)

/-- Modelled from the spec: `replace(from,to,text)` produces the new document
obtained by replacing the interval `[from, to)` with `text`. -/
def Text.replace (d : Text) (a b : Int) (s : List Char) : Text :=
  ⟨d.content.take a.toNat ++ s ++ d.content.drop b.toNat⟩

/-- One text replacement (class `Change` in `src/unnamed/part_000`): replace
the half-open interval `[from, to)` of the old document with `text`. -/
structure Change where
  «from» : Int
  «to» : Int
  text : List Char
deriving DecidableEq

/-- `Change.mapPos(pos, bias = 1)` from `src/unnamed/part_000` lines 260-265,
translated branch by branch.  The JavaScript default argument `bias = 1` is
passed explicitly at every call site below. -/
def Change.mapPos (c : Change) (pos : Int) (bias : Int) : Int :=
  if pos < c.«from» ∨ (bias < 0 ∧ pos = c.«from») then pos
  else if pos > c.«to» then pos + c.text.length - (c.«to» - c.«from»)
  else
    let side : Int :=
      if c.«from» = c.«to» then bias
      else if pos = c.«from» then -1
      else if pos = c.«to» then 1
      else bias
    c.«from» + (if side < 0 then 0 else (c.text.length : Int))

/-- `Change.invert(doc)` from `src/unnamed/part_000`: same `from`,
`to = from + text.length`, `text = doc.slice(from, to)`. -/
def Change.invert (c : Change) (doc : Text) : Change :=
  ⟨c.«from», c.«from» + c.text.length, doc.slice c.«from» c.«to»⟩

/-- `Change.apply(doc)` from `src/unnamed/part_000`: delegates to the
document collaborator's `replace`. -/
def Change.apply (c : Change) (doc : Text) : Text :=
  doc.replace c.«from» c.«to» c.text

/-- Class `Range` from `src/unnamed/part_000` (anchor/head offsets). -/
structure Range where
  anchor : Int
  head : Int
deriving DecidableEq

/-- Derived getter `from = min(anchor, head)`. -/
def Range.«from» (r : Range) : Int :=
  min r.anchor r.head

/-- Derived getter `to = max(anchor, head)`. -/
def Range.«to» (r : Range) : Int :=
  max r.anchor r.head

/-- Derived getter `empty = (anchor == head)`. -/
def Range.empty (r : Range) : Bool :=
  r.anchor == r.head

/-- `Range.map(change)` from `src/unnamed/part_000` lines 108-112: maps
anchor and head through `mapPos`, both with the default bias `1`.  The
source's same-instance shortcut (returning `this` when both positions are
unchanged) is the identity on values. -/
def Range.map (r : Range) (change : Change) : Range :=
  ⟨change.mapPos r.anchor 1, change.mapPos r.head 1⟩

/-- `Range.eq(other)` from `src/unnamed/part_000`. -/
def Range.eq (r other : Range) : Bool :=
  r.anchor == other.anchor && r.head == other.head

/-- Class `Selection` from `src/unnamed/part_000`: an ordered sequence of
ranges. -/
structure Selection where
  ranges : List Range
deriving DecidableEq

/-- `Selection.map(change)` maps every range. -/
def Selection.map (s : Selection) (change : Change) : Selection :=
  ⟨s.ranges.map (fun r => r.map change)⟩

/-- `Selection.primary` is the first range. -/
def Selection.primary (s : Selection) : Option Range :=
  s.ranges.head?

/-- `Selection.default`: a single zero-width range at offset 0. -/
def Selection.defaultSel : Selection :=
  ⟨[⟨0, 0⟩]⟩

/-- Metadata values stored in a transaction's `Meta` side table.  The
source stores arbitrary JavaScript values; the reserved slots (`time`,
`addToHistory`, `rebased`) hold numbers and booleans, which is what the
embedding covers. -/
inductive MetaVal where
  | num (n : Int)
  | bool (b : Bool)
deriving DecidableEq

/-- Class `MetaSlot` from `src/unnamed/part_000`: a named metadata slot
(the `unique` helper makes every constructed slot's name distinct, so the
name is the slot's identity). -/
structure MetaSlot where
  name : String
deriving DecidableEq

/-- Reserved slot `MetaSlot.time`. -/
def MetaSlot.time : MetaSlot :=
  ⟨"time"⟩

/-- Reserved slot `MetaSlot.addToHistory`. -/
def MetaSlot.addToHistory : MetaSlot :=
  ⟨"addToHistory"⟩

/-- Reserved slot `MetaSlot.rebased`. -/
def MetaSlot.rebased : MetaSlot :=
  ⟨"rebased"⟩

/-- Everything of an `EditorState` that a field's `init`/`apply` function
can observe: the document, the selection and the per-field values.  Field
values live on the state object keyed by the field's `key` (an association
list standing for the JavaScript property table; an absent key is the
JavaScript `undefined`).  All fields of one configuration share the value
type `V` (the source types them individually as `StateField<T>`, erased to
`any` on the state object). -/
structure StateView (V : Type) where
  doc : Text
  selection : Selection
  values : List (Nat × V)

/-- Everything of a `Transaction` that a field's `apply` function can
observe. -/
structure TrView (V : Type) where
  startState : StateView V
  changes : List Change
  docs : List Text
  selection : Selection
  meta : List (String × MetaVal)
  flags : Nat

/-- Class `StateField` from `src/unnamed/part_000`.  `key` is the unique
identity produced by the `unique` helper; `init` and `apply` receive the
observable views of the state and transaction objects the source passes
them.  The old-value argument of `apply` is an `Option` because the
JavaScript property read `startState[field.key]` yields `undefined` when
the field is absent. -/
structure StateField (V : Type) where
  key : Nat
  init : StateView V → V
  apply : TrView V → Option V → StateView V → V

/-- Class `Plugin` from `src/unnamed/part_000`: carries an optional state
field (the opaque `config`/`props` payloads play no role in any claim and
are omitted). -/
structure Plugin (V : Type) where
  stateField : Option (StateField V)

/-- Error raised by the `Configuration` constructor (the spec calls it a
ConfigurationError). -/
inductive ConfigError where
  | duplicateField (key : Nat)
deriving DecidableEq

/-- Loop body of the `Configuration` constructor from
`src/unnamed/part_000` lines 47-61: walk the plugins, collect their state
fields and fail when a field identity is already present.  The source
compares fields with `indexOf` (reference identity); identity is embedded
as the field's unique `key`. -/
def collectFields {V : Type} : List (Plugin V) → List (StateField V) →
    Except ConfigError (List (StateField V))
  | [], acc => .ok acc
  | p :: rest, acc =>
    match p.stateField with
    | none => collectFields rest acc
    | some f =>
      if acc.any (fun g => g.key == f.key) then .error (.duplicateField f.key)
      else collectFields rest (acc ++ [f])

/-- Class `Configuration` from `src/unnamed/part_000`: the plugins plus the
collected list of their state fields. -/
structure Configuration (V : Type) where
  plugins : List (Plugin V)
  fields : List (StateField V)

/-- The `Configuration` constructor: collects the fields or throws. -/
def Configuration.make {V : Type} (plugins : List (Plugin V)) :
    Except ConfigError (Configuration V) :=
  (collectFields plugins []).map (fun fs => ⟨plugins, fs⟩)

/-- Class `EditorState` from `src/unnamed/part_000`: configuration,
document, selection, and the field values stored on the object. -/
structure EditorState (V : Type) where
  config : Configuration V
  doc : Text
  selection : Selection
  values : List (Nat × V)

/-- The observable view of a state (drops the configuration, which field
functions reach only through `getPluginWithField`, unused by any claim). -/
def EditorState.view {V : Type} (st : EditorState V) : StateView V :=
  ⟨st.doc, st.selection, st.values⟩

/-- `EditorState.getField(field)` from `src/unnamed/part_000`: the property
read `(this)[field.key]`, `undefined` (`none`) when absent. -/
def EditorState.getField {V : Type} (st : EditorState V) (f : StateField V) :
    Option V :=
  st.values.lookup f.key

/-- `EditorState.create` from `src/unnamed/part_000` lines 91-98: resolve
the configuration (which may throw), build the state, then fill each
field's value from its `init` rule in field order — each `init` runs
against the state object as filled so far. -/
def EditorState.create {V : Type} (doc : Text) (selection : Option Selection)
    (plugins : List (Plugin V)) : Except ConfigError (EditorState V) :=
  (Configuration.make plugins).map (fun conf =>
    conf.fields.foldl
      (fun st f => { st with values := (f.key, f.init st.view) :: st.values })
      ⟨conf, doc, selection.getD Selection.defaultSel, []⟩)

/-- Class `Transaction` from `src/unnamed/part_000`: the start state, the
accumulated changes with their intermediate documents, the current
selection, the metadata table and the two flag bits
(`FLAG_SELECTION_SET = 1`, `FLAG_SCROLL_INTO_VIEW = 2`). -/
structure Transaction (V : Type) where
  startState : EditorState V
  changes : List Change
  docs : List Text
  selection : Selection
  meta : List (String × MetaVal)
  flags : Nat

/-- `Transaction.start(state, time)` from `src/unnamed/part_000`: empty
changes and docs, the state's selection, a meta table holding the
timestamp, zero flags. -/
def Transaction.start {V : Type} (state : EditorState V) (time : Int) :
    Transaction V :=
  ⟨state, [], [], state.selection, [(MetaSlot.time.name, .num time)], 0⟩

/-- `Transaction.doc` from `src/unnamed/part_000` lines 181-184: the last
intermediate document, or the start state's document when there is none. -/
def Transaction.doc {V : Type} (tr : Transaction V) : Text :=
  match tr.docs.getLast? with
  | some d => d
  | none => tr.startState.doc

/-- The observable view of a transaction. -/
def Transaction.view {V : Type} (tr : Transaction V) : TrView V :=
  ⟨tr.startState.view, tr.changes, tr.docs, tr.selection, tr.meta, tr.flags⟩

/-- `Transaction.setMeta(slot, value)`: copy-on-write update of the meta
table. -/
def Transaction.setMeta {V : Type} (tr : Transaction V) (slot : MetaSlot)
    (value : MetaVal) : Transaction V :=
  { tr with meta := (slot.name, value) :: tr.meta }

/-- `Transaction.getMeta(slot)`. -/
def Transaction.getMeta {V : Type} (tr : Transaction V) (slot : MetaSlot) :
    Option MetaVal :=
  tr.meta.lookup slot.name

/-- `Transaction.change(change)` from `src/unnamed/part_000` lines 196-202:
degenerate changes are elided; otherwise the change and its resulting
document are appended and the pending selection is mapped through the new
change. -/
def Transaction.change {V : Type} (tr : Transaction V) (change : Change) :
    Transaction V :=
  if change.«from» = change.«to» ∧ change.text = [] then tr
  else
    { tr with
      changes := tr.changes ++ [change],
      docs := tr.docs ++ [change.apply tr.doc],
      selection := tr.selection.map change }

/-- `Transaction.replace(from, to, text)`. -/
def Transaction.replace {V : Type} (tr : Transaction V) (a b : Int)
    (text : List Char) : Transaction V :=
  tr.change ⟨a, b, text⟩

/-- `Transaction.reduceRanges(f)` from `src/unnamed/part_000` lines
214-224: iterate the ranges of the selection as it stood at the start of
the reduction; before invoking `f` on a range, map it through every change
appended since the reduction started (indices from the starting change
count on). -/
def Transaction.reduceRanges {V : Type} (tr : Transaction V)
    (f : Transaction V → Range → Transaction V) : Transaction V :=
  let sel := tr.selection
  let start := tr.changes.length
  sel.ranges.foldl
    (fun acc range =>
      f acc ((acc.changes.drop start).foldl (fun r c => r.map c) range))
    tr

/-- `Transaction.replaceSelection(text)` from `src/unnamed/part_000` lines
208-212. -/
def Transaction.replaceSelection {V : Type} (tr : Transaction V)
    (text : List Char) : Transaction V :=
  tr.reduceRanges (fun state r => state.change ⟨r.«from», r.«to», text⟩)

/-- `Transaction.setSelection(selection)`: replaces the selection and sets
the `FLAG_SELECTION_SET` bit. -/
def Transaction.setSelection {V : Type} (tr : Transaction V)
    (selection : Selection) : Transaction V :=
  { tr with selection := selection, flags := tr.flags ||| 1 }

/-- `Transaction.selectionSet`: tests the `FLAG_SELECTION_SET` bit. -/
def Transaction.selectionSet {V : Type} (tr : Transaction V) : Bool :=
  tr.flags &&& 1 != 0

/-- `Transaction.scrollIntoView()`: sets the `FLAG_SCROLL_INTO_VIEW` bit. -/
def Transaction.scrollIntoView {V : Type} (tr : Transaction V) :
    Transaction V :=
  { tr with flags := tr.flags ||| 2 }

/-- `Transaction.scrolledIntoView`. -/
def Transaction.scrolledIntoView {V : Type} (tr : Transaction V) : Bool :=
  tr.flags &&& 2 != 0

/-- Loop body of `Transaction.apply` from `src/unnamed/part_000` lines
242-250: run the given fields in order over the new state, writing each
field's next value — `field.apply(this, startState[field.key], newState)`
— onto the state object (so a later field's `apply` receives the new state
with the earlier fields' new values already present). -/
def Transaction.applyFields {V : Type} (tr : Transaction V)
    (fields : List (StateField V)) (st : EditorState V) : EditorState V :=
  fields.foldl
    (fun s f =>
      { s with
        values :=
          (f.key, f.apply tr.view (tr.startState.values.lookup f.key) s.view)
            :: s.values })
    st

/-- `Transaction.apply()` from `src/unnamed/part_000` lines 242-250: build
the new state from the configuration, final document and selection, then
run every configured field's `apply` rule in configuration order. -/
def Transaction.apply {V : Type} (tr : Transaction V) : EditorState V :=
  tr.applyFields tr.startState.config.fields
    ⟨tr.startState.config, tr.doc, tr.selection, []⟩

/-- The intermediate state after the first `i` fields of the
`Transaction.apply` loop have run. -/
def Transaction.applyUpTo {V : Type} (tr : Transaction V) (i : Nat) :
    EditorState V :=
  tr.applyFields (tr.startState.config.fields.take i)
    ⟨tr.startState.config, tr.doc, tr.selection, []⟩

/-- Transactions reachable from `Transaction.start` by the builder
operations of `src/unnamed/part_000`.  `replace`, `replaceSelection` and
`reduceRanges` factor through these constructors (see
`reachable_reduceRanges`). -/
inductive Reachable {V : Type} : Transaction V → Prop where
  | start (state : EditorState V) (time : Int) :
      Reachable (Transaction.start state time)
  | change (tr : Transaction V) (c : Change) :
      Reachable tr → Reachable (tr.change c)
  | setSelection (tr : Transaction V) (s : Selection) :
      Reachable tr → Reachable (tr.setSelection s)
  | setMeta (tr : Transaction V) (slot : MetaSlot) (v : MetaVal) :
      Reachable tr → Reachable (tr.setMeta slot v)
  | scrollIntoView (tr : Transaction V) :
      Reachable tr → Reachable tr.scrollIntoView

/-- Invariant claimed for a transaction's accumulated lists: one
intermediate document per change, each produced by applying the matching
change to the document before it, with the `doc` getter returning the last
one (or the start document when there is none). -/
def Transaction.docsInv {V : Type} (tr : Transaction V) : Prop :=
  tr.docs.length = tr.changes.length ∧
  (∀ i, i < tr.docs.length →
    tr.docs.getD i ⟨[]⟩ =
      (tr.changes.getD i ⟨0, 0, []⟩).apply
        ((tr.startState.doc :: tr.docs).getD i ⟨[]⟩)) ∧
  tr.doc = tr.docs.getLastD tr.startState.doc

/-- The newer `EditorState` of `src/state/src/state.ts` (the facet-based
rewrite), as far as the claims need it: its constructor validates that
every selection range lies inside the document.  The `EditorSelection` and
`Text` types it uses come from `src/state/src/selection.ts` and
`src/text`, which are not under `src/`; their ranges expose a `to` bound
like `Range` above (modelled from the spec).  The dynamic-slot machinery
(`values`/`status`, from the missing `facet.ts`) plays no role in the
claim about the constructor check and is omitted. -/
structure StateV2 where
  doc : Text
  selection : Selection
deriving DecidableEq

/-- Error thrown by the `src/state/src/state.ts` constructor
(`RangeError("Selection points outside of document")`). -/
inductive RangeErr where
  | rangeError (msg : String)
deriving DecidableEq

/-- Constructor of `EditorState` from `src/state/src/state.ts` lines 46-59:
throw a `RangeError` when any selection range's `to` exceeds the document
length, otherwise construct the state. -/
def StateV2.make (doc : Text) (selection : Selection) :
    Except RangeErr StateV2 :=
  if selection.ranges.any (fun r => decide (r.«to» > doc.length)) then
    .error (.rangeError "Selection points outside of document")
  else
    .ok ⟨doc, selection⟩

/-- Concrete field for the `Transaction.apply` examples: its `apply` rule
adds one to the field's old value. -/
def fieldInc : StateField Int :=
  ⟨0, fun _ => 0, fun _ old _ => old.getD 0 + 1⟩

/-- Concrete field for the `Transaction.apply` examples: its `apply` rule
ignores the transaction and its own old value and returns whatever it can
observe in slot 0 of the new state passed to it (or `-7` when that slot is
still unset). -/
def fieldSpy : StateField Int :=
  ⟨1, fun _ => 0, fun _ _ ns => (ns.values.lookup 0).getD (-7)⟩

/-- Concrete start state holding both example fields, with old values 10
(slot 0) and 20 (slot 1). -/
def twoFieldState : EditorState Int :=
  ⟨⟨[], [fieldInc, fieldSpy]⟩, Text.ofString "ab", Selection.defaultSel,
    [(0, 10), (1, 20)]⟩

/-- An empty transaction over `twoFieldState`. -/
def twoFieldTr : Transaction Int :=
  Transaction.start twoFieldState 0

/-- Concrete start state holding only `fieldInc`, with old value 1. -/
def oneFieldState : EditorState Int :=
  ⟨⟨[], [fieldInc]⟩, Text.ofString "hi", Selection.defaultSel, [(0, 1)]⟩

/-- C1: `Change.mapPos(pos, bias)` returns `pos` when `pos < from` or
(`bias < 0` and `pos == from`); returns `pos + text.length - (to - from)`
when `pos > to`; otherwise resolves a side — `bias` for a pure insertion
(`from == to`), else `-1` at `pos == from`, else `1` at `pos == to`, else
`bias` — and returns `from` for a negative side and `from + text.length`
otherwise. -/
theorem mapPos_resolves_sides (c : Change) (pos bias : Int) :
    ((pos < c.«from» ∨ (bias < 0 ∧ pos = c.«from»)) → c.mapPos pos bias = pos) ∧
    (¬(pos < c.«from» ∨ (bias < 0 ∧ pos = c.«from»)) → pos > c.«to» →
      c.mapPos pos bias = pos + c.text.length - (c.«to» - c.«from»)) ∧
    (¬(pos < c.«from» ∨ (bias < 0 ∧ pos = c.«from»)) → ¬(pos > c.«to») →
      ∃ side : Int,
        side = (if c.«from» = c.«to» then bias
                else if pos = c.«from» then -1
                else if pos = c.«to» then 1
                else bias) ∧
        c.mapPos pos bias = (if side < 0 then c.«from» else c.«from» + c.text.length)) := by
  refine ⟨fun h => ?_, fun h1 h2 => ?_, fun h1 h2 => ?_⟩
  · simp only [Change.mapPos, if_pos h]
  · simp only [Change.mapPos, if_neg h1, if_pos h2]
  · refine ⟨_, rfl, ?_⟩
    simp only [Change.mapPos, if_neg h1, if_neg h2]
    split <;> omega

/-- Witness for C1: the third branch of `mapPos_resolves_sides` at the
concrete change `(1, 3, "ab")` and position `2`. -/
theorem mapPos_resolves_sides_witness :
    ∃ side : Int,
      side = (if (1 : Int) = 3 then 1
              else if (2 : Int) = 1 then -1
              else if (2 : Int) = 3 then 1
              else 1) ∧
      (Change.mk 1 3 ['a', 'b']).mapPos 2 1 =
        (if side < 0 then 1 else 1 + (['a', 'b'] : List Char).length) := by
  have h := (mapPos_resolves_sides (Change.mk 1 3 ['a', 'b']) 2 1).2.2
    (by decide) (by decide)
  simpa using h

/-- C5 counterexample: the claim says no position outside `[from, to)` other
than those strictly after `to` is moved, but for the pure deletion
`(0, 1, "")` the position `1` lies outside `[0, 1)`, is not strictly after
`to = 1`, and is still moved to `0`. -/
theorem mapPos_at_to_counterexample :
    (Change.mk 0 1 []).mapPos 1 1 = 0 ∧
    (Change.mk 0 1 []).mapPos 1 1 ≠ 1 ∧
    ¬((1 : Int) < (Change.mk 0 1 []).«from») ∧
    ¬((1 : Int) > (Change.mk 0 1 []).«to») ∧
    ((1 : Int) < (Change.mk 0 1 []).«from» ∨ (Change.mk 0 1 []).«to» ≤ 1) := by
  refine ⟨?_, ?_, ?_, ?_, ?_⟩ <;> decide

/-- C5 (amended): with the default bias, positions before `from` are
unchanged and every position at or after `to` (not only strictly after) is
shifted by exactly `text.length - (to - from)`; positions strictly inside
`[from, to)` are the only ones this says nothing about. -/
theorem mapPos_outside_interval_amended (c : Change) (p : Int)
    (hft : c.«from» ≤ c.«to») :
    (p < c.«from» → c.mapPos p 1 = p) ∧
    (c.«to» ≤ p → c.mapPos p 1 = p + c.text.length - (c.«to» - c.«from»)) := by
  constructor
  · intro hp
    simp only [Change.mapPos, if_pos (Or.inl hp)]
  · intro hp
    simp only [Change.mapPos]
    split
    · omega
    · split
      · rfl
      · split <;> omega

/-- Witness for C5 (amended): the deletion `(1, 3, "")` leaves `0` in place
and shifts `3` to `1 = 3 + 0 - (3 - 1)`. -/
theorem mapPos_outside_interval_amended_witness :
    (Change.mk 1 3 []).mapPos 0 1 = 0 ∧
    (Change.mk 1 3 []).mapPos 3 1 = 3 + ([] : List Char).length - (3 - 1) := by
  exact ⟨(mapPos_outside_interval_amended (Change.mk 1 3 []) 0 (by decide)).1 (by decide),
         (mapPos_outside_interval_amended (Change.mk 1 3 []) 3 (by decide)).2 (by decide)⟩

/-- C10: a cursor range sitting exactly at a pure insertion point is mapped
with the default bias `+1` (because `Range.map` never passes a bias) and so
ends up after the inserted text. -/
theorem cursor_at_insertion_bias (p : Int) (text : List Char)
    (h : text ≠ []) :
    (Range.mk p p).map (Change.mk p p text) =
      Range.mk (p + text.length) (p + text.length) := by
  have hmap : (Change.mk p p text).mapPos p 1 = p + text.length := by
    simp only [Change.mapPos]
    split
    · omega
    · split
      · omega
      · split <;> omega
  simp [Range.map, hmap]

/-- Witness for C10: inserting `"X"` at offset `3` carries a cursor at `3`
to offset `4`. -/
theorem cursor_at_insertion_bias_witness :
    (Range.mk 3 3).map (Change.mk 3 3 ['X']) = Range.mk (3 + (['X'] : List Char).length) (3 + (['X'] : List Char).length) :=
  cursor_at_insertion_bias 3 ['X'] (by decide)

/-- Length of a document slice: for in-bounds offsets the slice of
`[a, b)` has exactly `b - a` characters. -/
theorem Text.length_slice (d : Text) (a b : Int)
    (h0 : 0 ≤ a) (h1 : a ≤ b) (h2 : b ≤ d.length) :
    ((d.slice a b).length : Int) = b - a := by
  simp only [Text.slice, Text.length, List.length_take, List.length_drop] at *
  omega

/-- Evaluation of `mapPos` with the default bias at a position strictly
before the replaced interval: the position is unaffected. -/
theorem mapPos_before (c : Change) (p : Int) (hp : p < c.«from») :
    c.mapPos p 1 = p := by
  simp only [Change.mapPos, if_pos (Or.inl hp)]

/-- Evaluation of `mapPos` with the default bias at a position at or after
`to`: the position is shifted by exactly `text.length - (to - from)`. -/
theorem mapPos_ge_to (c : Change) (p : Int)
    (h1 : c.«from» ≤ c.«to») (hp : c.«to» ≤ p) :
    c.mapPos p 1 = p + c.text.length - (c.«to» - c.«from») := by
  simp only [Change.mapPos]
  split
  · omega
  · split
    · rfl
    · split <;> omega

/-- Mapping a single position through a change and then through the
inverted change restores the position, provided the position lies outside
the replaced half-open interval. -/
theorem mapPos_invert_eq (c : Change) (d : Text) (p : Int)
    (h0 : 0 ≤ c.«from») (h1 : c.«from» ≤ c.«to») (h2 : c.«to» ≤ d.length)
    (hp : p < c.«from» ∨ c.«to» ≤ p) :
    (c.invert d).mapPos (c.mapPos p 1) 1 = p := by
  have hm : ((d.slice c.«from» c.«to»).length : Int) = c.«to» - c.«from» :=
    Text.length_slice d c.«from» c.«to» h0 h1 h2
  have hn : (0 : Int) ≤ c.text.length := Int.ofNat_nonneg _
  rcases hp with hp | hp
  · rw [mapPos_before c p hp, mapPos_before (c.invert d) p hp]
  · rw [mapPos_ge_to c p h1 hp]
    have hout : (c.invert d).«to» ≤ p + c.text.length - (c.«to» - c.«from») := by
      simp only [Change.invert]
      omega
    rw [mapPos_ge_to (c.invert d) _ (by simp only [Change.invert]; omega) hout]
    simp only [Change.invert, hm]
    omega

/-- C2: for a pure insertion (`from == to`) or a pure deletion (empty
`text`), a range whose anchor and head both lie outside the replaced
half-open interval `[from, to)` is restored exactly by mapping through the
change and then through its inversion against the pre-change document. -/
theorem range_map_invert_roundtrip (c : Change) (docBefore : Text) (r : Range)
    (hkind : c.«from» = c.«to» ∨ c.text = [])
    (h0 : 0 ≤ c.«from») (h1 : c.«from» ≤ c.«to») (h2 : c.«to» ≤ docBefore.length)
    (ha : r.anchor < c.«from» ∨ c.«to» ≤ r.anchor)
    (hh : r.head < c.«from» ∨ c.«to» ≤ r.head) :
    (r.map c).map (c.invert docBefore) = r := by
  cases r with
  | mk a h =>
    simp only [Range.map, Range.mk.injEq]
    exact ⟨mapPos_invert_eq c docBefore a h0 h1 h2 ha,
           mapPos_invert_eq c docBefore h h0 h1 h2 hh⟩

/-- Witness for C2: inserting `"X"` at offset 1 of `"abc"` maps the range
`(0, 2)` to `(0, 3)`, and the inverted change (deleting `[1, 2)`) maps it
back to `(0, 2)`. -/
theorem range_map_invert_roundtrip_witness :
    ((Range.mk 0 2).map (Change.mk 1 1 ['X'])).map
        ((Change.mk 1 1 ['X']).invert (Text.ofString "abc")) = Range.mk 0 2 :=
  range_map_invert_roundtrip (Change.mk 1 1 ['X']) (Text.ofString "abc")
    (Range.mk 0 2) (Or.inl (by decide)) (by decide) (by decide) (by decide)
    (Or.inl (by decide)) (Or.inr (by decide))

/-- C3: starting from doc `"abcdef"` with two cursors at offsets 0 and 3,
`replaceSelection("X")` (which goes through `reduceRanges`) inserts `"X"`
at 0 and then at the mapped position 4 — the second cursor was re-mapped
through the change appended by the first iteration — producing the final
document `"XabcXdef"`. -/
theorem reduceRanges_multicursor_scenario :
    ((Transaction.start
        (⟨⟨[], []⟩, Text.ofString "abcdef", ⟨[⟨0, 0⟩, ⟨3, 3⟩]⟩, []⟩ :
          EditorState Unit) 0).replaceSelection ['X']).doc =
      Text.ofString "XabcXdef" ∧
    ((Transaction.start
        (⟨⟨[], []⟩, Text.ofString "abcdef", ⟨[⟨0, 0⟩, ⟨3, 3⟩]⟩, []⟩ :
          EditorState Unit) 0).replaceSelection ['X']).changes =
      [⟨0, 0, ['X']⟩, ⟨4, 4, ['X']⟩] := by
  constructor <;> rfl

/-- Running `collectFields` errors whenever some plugin in the remaining
list carries a field whose identity is already in the accumulator. -/
theorem collectFields_error_of_mem {V : Type} :
    ∀ (ps : List (Plugin V)) (acc : List (StateField V)) (f : StateField V),
      (∃ p ∈ ps, p.stateField = some f) →
      (∃ g ∈ acc, g.key = f.key) →
      ∃ e, collectFields ps acc = Except.error e
  | [], _, _, hin, _ => by
      rcases hin with ⟨p, hp, _⟩
      simp at hp
  | p :: rest, acc, f, hin, hacc => by
      rcases hin with ⟨q, hq, hqf⟩
      rcases hacc with ⟨g, hg, hgk⟩
      cases hps : p.stateField with
      | none =>
        have hqrest : q ∈ rest := by
          rcases List.mem_cons.1 hq with h | h
          · subst h
            rw [hps] at hqf
            cases hqf
          · exact h
        have ih := collectFields_error_of_mem rest acc f ⟨q, hqrest, hqf⟩
          ⟨g, hg, hgk⟩
        simpa only [collectFields, hps] using ih
      | some f0 =>
        by_cases hdup : acc.any (fun g2 => g2.key == f0.key)
        · exact ⟨ConfigError.duplicateField f0.key,
            by simp only [collectFields, hps, if_pos hdup]⟩
        · have hqrest : q ∈ rest := by
            rcases List.mem_cons.1 hq with h | h
            · subst h
              rw [hps] at hqf
              injection hqf with hff
              subst hff
              exact absurd (List.any_eq_true.2 ⟨g, hg, by simpa using hgk⟩) hdup
            · exact h
          have ih := collectFields_error_of_mem rest (acc ++ [f0]) f
            ⟨q, hqrest, hqf⟩ ⟨g, List.mem_append_left _ hg, hgk⟩
          simpa only [collectFields, hps, if_neg hdup] using ih

/-- Running `collectFields` errors whenever the plugin list splits as
`l1 ++ p :: l2` with `p` carrying field `f` and `f` occurring again in
`l2`. -/
theorem collectFields_error_dup {V : Type} :
    ∀ (l1 : List (Plugin V)) (p : Plugin V) (l2 : List (Plugin V))
      (acc : List (StateField V)) (f : StateField V),
      p.stateField = some f →
      (∃ q ∈ l2, q.stateField = some f) →
      ∃ e, collectFields (l1 ++ p :: l2) acc = Except.error e
  | [], p, l2, acc, f, hp, hl2 => by
      by_cases hdup : acc.any (fun g => g.key == f.key)
      · exact ⟨ConfigError.duplicateField f.key,
          by simp only [List.nil_append, collectFields, hp, if_pos hdup]⟩
      · have h := collectFields_error_of_mem l2 (acc ++ [f]) f hl2
          ⟨f, List.mem_append_right _ (List.mem_singleton.2 rfl), rfl⟩
        simpa only [List.nil_append, collectFields, hp, if_neg hdup] using h
  | a :: l1, p, l2, acc, f, hp, hl2 => by
      cases has : a.stateField with
      | none =>
        have ih := collectFields_error_dup l1 p l2 acc f hp hl2
        simpa only [List.cons_append, collectFields, has] using ih
      | some f0 =>
        by_cases hdup : acc.any (fun g => g.key == f0.key)
        · exact ⟨ConfigError.duplicateField f0.key,
            by simp only [List.cons_append, collectFields, has, if_pos hdup]⟩
        · have ih := collectFields_error_dup l1 p l2 (acc ++ [f0]) f hp hl2
          simpa only [List.cons_append, collectFields, has, if_neg hdup] using ih

/-- C6: a plugin list in which the same state field identity appears at
two distinct positions makes the `Configuration` constructor fail — a
field may be installed at most once per configuration. -/
theorem duplicate_field_config_error {V : Type} (plugins : List (Plugin V))
    (f : StateField V) (i j : Nat) (hij : i < j) (hj : j < plugins.length)
    (hfi : (plugins.get ⟨i, Nat.lt_trans hij hj⟩).stateField = some f)
    (hfj : (plugins.get ⟨j, hj⟩).stateField = some f) :
    ∃ e, Configuration.make plugins = Except.error e := by
  have hi : i < plugins.length := Nat.lt_trans hij hj
  have hsplit : plugins =
      plugins.take i ++ plugins.get ⟨i, hi⟩ :: plugins.drop (i + 1) := by
    conv_lhs => rw [← List.take_append_drop i plugins]
    rw [List.drop_eq_getElem_cons hi, List.get_eq_getElem]
  have hlen : j - (i + 1) < (plugins.drop (i + 1)).length := by
    simp only [List.length_drop]
    omega
  have hidx : i + 1 + (j - (i + 1)) = j := by omega
  have hmem : plugins.get ⟨j, hj⟩ ∈ plugins.drop (i + 1) := by
    have h2 : (plugins.drop (i + 1)).get ⟨j - (i + 1), hlen⟩ =
        plugins.get ⟨j, hj⟩ := by
      simp only [List.get_eq_getElem, List.getElem_drop, hidx]
    rw [← h2]
    exact List.get_mem _ _ _
  obtain ⟨e, he⟩ := collectFields_error_dup (plugins.take i)
    (plugins.get ⟨i, hi⟩) (plugins.drop (i + 1)) [] f hfi
    ⟨plugins.get ⟨j, hj⟩, hmem, hfj⟩
  refine ⟨e, ?_⟩
  simp only [Configuration.make]
  rw [hsplit, he]
  rfl

/-- Witness for C6: installing the same field (identity key 5) through two
plugins fails. -/
theorem duplicate_field_config_error_witness :
    ∃ e, Configuration.make
      [(⟨some ⟨5, fun _ => (), fun _ _ _ => ()⟩⟩ : Plugin Unit),
       ⟨some ⟨5, fun _ => (), fun _ _ _ => ()⟩⟩] = Except.error e :=
  duplicate_field_config_error _ ⟨5, fun _ => (), fun _ _ _ => ()⟩ 0 1
    (by decide) (by decide) rfl rfl

/-- C7: the `src/state/src/state.ts` constructor succeeds exactly on
selections every range of which ends inside the document, and throws a
`RangeError` as soon as one range's `to` exceeds the document length. -/
theorem state_range_check (doc : Text) (sel : Selection) :
    ((∀ r ∈ sel.ranges, r.«to» ≤ doc.length) →
      StateV2.make doc sel = Except.ok ⟨doc, sel⟩) ∧
    ((∃ r ∈ sel.ranges, r.«to» > doc.length) →
      ∃ e, StateV2.make doc sel = Except.error e) := by
  constructor
  · intro h
    simp only [StateV2.make]
    rw [if_neg]
    simp only [List.any_eq_true, decide_eq_true_eq, not_exists, not_and, not_lt]
    exact fun r hr => h r hr
  · rintro ⟨r, hr, hgt⟩
    refine ⟨RangeErr.rangeError "Selection points outside of document", ?_⟩
    simp only [StateV2.make]
    rw [if_pos (List.any_eq_true.2 ⟨r, hr, by simpa using hgt⟩)]

/-- Witness for C7: with doc `"ab"` the range `(0, 2)` is accepted and the
range `(0, 5)` is rejected. -/
theorem state_range_check_witness :
    StateV2.make (Text.ofString "ab") ⟨[Range.mk 0 2]⟩ =
        Except.ok ⟨Text.ofString "ab", ⟨[Range.mk 0 2]⟩⟩ ∧
    ∃ e, StateV2.make (Text.ofString "ab") ⟨[Range.mk 0 5]⟩ =
        Except.error e :=
  ⟨(state_range_check _ _).1 (by decide),
   (state_range_check _ _).2 ⟨Range.mk 0 5, by decide, by decide⟩⟩

/-- A reduction whose per-range transform only uses builder operations
produces a reachable transaction: `replaceSelection` is the instance with
`f = change`. -/
theorem reachable_reduceRanges {V : Type} (tr : Transaction V)
    (f : Transaction V → Range → Transaction V)
    (hf : ∀ t r, Reachable t → Reachable (f t r)) (hr : Reachable tr) :
    Reachable (tr.reduceRanges f) := by
  have hgen : ∀ (rs : List Range) (acc : Transaction V), Reachable acc →
      Reachable (rs.foldl
        (fun acc range =>
          f acc ((acc.changes.drop tr.changes.length).foldl
            (fun r c => r.map c) range))
        acc) := by
    intro rs
    induction rs with
    | nil => intro acc hacc; exact hacc
    | cons r rest ih =>
      intro acc hacc
      exact ih _ (hf _ _ hacc)
  exact hgen tr.selection.ranges tr hr

/-- Setting the `FLAG_SELECTION_SET` bit makes the low bit 1. -/
theorem and_one_of_or_one (fl : Nat) : (fl ||| 1) &&& 1 = 1 := by
  rw [Nat.and_comm (fl ||| 1) 1, Nat.and_or_distrib_left, Nat.and_comm 1 fl,
    Nat.and_one_is_mod]
  rcases Nat.mod_two_eq_zero_or_one fl with h | h <;> rw [h] <;> decide

/-- Setting the `FLAG_SCROLL_INTO_VIEW` bit leaves the low bit alone. -/
theorem and_one_of_or_two (fl : Nat) : (fl ||| 2) &&& 1 = fl &&& 1 := by
  rw [Nat.and_comm (fl ||| 2) 1, Nat.and_or_distrib_left, Nat.and_comm 1 fl]
  have h2 : (1 : Nat) &&& 2 = 0 := by decide
  rw [h2, Nat.or_zero]

/-- Reading a cons list at the index equal to the tail's length gives the
tail's last element (or the head when the tail is empty). -/
theorem getD_cons_length {α : Type} (a : α) (l : List α) (d : α) :
    (a :: l).getD l.length d = l.getLastD a := by
  induction l generalizing a with
  | nil => rfl
  | cons x xs ih =>
    simp only [List.length_cons, List.getD_cons_succ, List.getLastD_cons]
    exact ih x

/-- Every reachable transaction satisfies the docs/changes invariant. -/
theorem reachable_docs_inv {V : Type} {tr : Transaction V}
    (hr : Reachable tr) : tr.docsInv := by
  induction hr with
  | start st time =>
    exact ⟨rfl, fun i hi => absurd hi (by simp [Transaction.start]), rfl⟩
  | change tr c htr ih =>
    by_cases hdeg : c.«from» = c.«to» ∧ c.text = []
    · simpa only [Transaction.change, if_pos hdeg] using ih
    · obtain ⟨ihlen, ihdocs, ihdoc⟩ := ih
      have hch : (tr.change c).changes = tr.changes ++ [c] := by
        simp [Transaction.change, hdeg]
      have hdc : (tr.change c).docs = tr.docs ++ [c.apply tr.doc] := by
        simp [Transaction.change, hdeg]
      have hst : (tr.change c).startState = tr.startState := by
        simp [Transaction.change, hdeg]
      have hcons : tr.startState.doc :: (tr.docs ++ [c.apply tr.doc]) =
          (tr.startState.doc :: tr.docs) ++ [c.apply tr.doc] := by
        simp
      refine ⟨?_, ?_, ?_⟩
      · rw [hch, hdc]
        simp [ihlen]
      · intro i hi
        rw [hdc] at hi
        simp only [List.length_append, List.length_singleton] at hi
        rw [hch, hdc, hst]
        by_cases hlt : i < tr.docs.length
        · rw [List.getD_append _ _ _ _ hlt,
            List.getD_append _ _ _ _ (by omega : i < tr.changes.length)]
          rw [hcons, List.getD_append _ _ _ _ (by simp; omega)]
          exact ihdocs i hlt
        · have hieq : i = tr.docs.length := by omega
          subst hieq
          have hA : (tr.docs ++ [c.apply tr.doc]).getD tr.docs.length
              ⟨[]⟩ = c.apply tr.doc := by
            rw [List.getD_append_right _ _ _ _ (le_refl _), Nat.sub_self]
            rfl
          have hB : (tr.changes ++ [c]).getD tr.docs.length
              ⟨0, 0, []⟩ = c := by
            rw [ihlen, List.getD_append_right _ _ _ _ (le_refl _),
              Nat.sub_self]
            rfl
          have hC : (tr.startState.doc ::
              (tr.docs ++ [c.apply tr.doc])).getD tr.docs.length ⟨[]⟩ =
              tr.doc := by
            rw [hcons, List.getD_append _ _ _ _ (by simp),
              getD_cons_length, ihdoc]
          rw [hA, hB, hC]
      · rw [hdc, hst]
        have h1 : (tr.change c).doc = c.apply tr.doc := by
          simp [Transaction.doc, Transaction.change, hdeg,
            List.getLast?_concat]
        rw [h1]
        simp [List.getLastD_concat]
  | setSelection tr s htr ih => exact ih
  | setMeta tr slot v htr ih => exact ih
  | scrollIntoView tr htr ih => exact ih

/-- C9: every transaction reachable by builder operations keeps one
intermediate document per accumulated change, each the result of applying
the matching change to the previous document, with the `doc` getter
returning the last intermediate document (or the start document when
there is none). -/
theorem transaction_docs_invariant {V : Type} (tr : Transaction V)
    (hr : Reachable tr) : tr.docsInv :=
  reachable_docs_inv hr

/-- Witness for C9: the invariant at a concrete reachable transaction (one
insertion on `oneFieldState`). -/
theorem transaction_docs_invariant_witness :
    ((Transaction.start oneFieldState 0).change ⟨0, 1, ['X']⟩).docsInv :=
  transaction_docs_invariant _
    (Reachable.change _ _ (Reachable.start _ _))

/-- A reachable transaction with no accumulated change and the selection
flag still clear carries the start state's selection. -/
theorem reachable_selection_unset {V : Type} {tr : Transaction V}
    (hr : Reachable tr) :
    tr.changes = [] → tr.flags &&& 1 = 0 →
    tr.selection = tr.startState.selection := by
  induction hr with
  | start st time => intro _ _; rfl
  | change tr c htr ih =>
    intro hc hf
    by_cases hdeg : c.«from» = c.«to» ∧ c.text = []
    · have heq : tr.change c = tr := by
        simp [Transaction.change, hdeg]
      rw [heq] at hc hf ⊢
      exact ih hc hf
    · exfalso
      have heq : (tr.change c).changes = tr.changes ++ [c] := by
        simp [Transaction.change, hdeg]
      rw [heq] at hc
      simp at hc
  | setSelection tr s htr ih =>
    intro _ hf
    have h1 : (tr.setSelection s).flags &&& 1 = 1 := and_one_of_or_one tr.flags
    rw [h1] at hf
    simp at hf
  | setMeta tr slot v htr ih =>
    intro hc hf
    exact ih hc hf
  | scrollIntoView tr htr ih =>
    intro hc hf
    have h2 : tr.scrollIntoView.flags &&& 1 = tr.flags &&& 1 :=
      and_one_of_or_two tr.flags
    rw [h2] at hf
    exact ih hc hf

/-- Unfolding the `Transaction.apply` loop over an empty field list. -/
theorem applyFields_nil {V : Type} (tr : Transaction V)
    (st : EditorState V) : tr.applyFields [] st = st :=
  rfl

/-- Unfolding one step of the `Transaction.apply` loop. -/
theorem applyFields_cons {V : Type} (tr : Transaction V)
    (f : StateField V) (rest : List (StateField V)) (st : EditorState V) :
    tr.applyFields (f :: rest) st =
      tr.applyFields rest
        { st with
          values :=
            (f.key,
              f.apply tr.view (tr.startState.values.lookup f.key) st.view)
              :: st.values } :=
  rfl

/-- The `Transaction.apply` loop over a concatenation runs the two parts in
sequence. -/
theorem applyFields_append {V : Type} (tr : Transaction V)
    (l1 l2 : List (StateField V)) (st : EditorState V) :
    tr.applyFields (l1 ++ l2) st =
      tr.applyFields l2 (tr.applyFields l1 st) := by
  simp only [Transaction.applyFields, List.foldl_append]

/-- The `Transaction.apply` loop never touches the document, the selection
or the configuration of the state it fills. -/
theorem applyFields_frame {V : Type} (tr : Transaction V)
    (fs : List (StateField V)) (st : EditorState V) :
    (tr.applyFields fs st).doc = st.doc ∧
    (tr.applyFields fs st).selection = st.selection ∧
    (tr.applyFields fs st).config = st.config := by
  induction fs generalizing st with
  | nil => exact ⟨rfl, rfl, rfl⟩
  | cons f rest ih =>
    rw [applyFields_cons]
    exact ih _

/-- The `Transaction.apply` loop prepends exactly one value entry per field
run, keyed by the fields' keys in reverse run order. -/
theorem applyFields_values {V : Type} (tr : Transaction V)
    (fs : List (StateField V)) (st : EditorState V) :
    ∃ pre, (tr.applyFields fs st).values = pre ++ st.values ∧
      pre.map Prod.fst = (fs.map StateField.key).reverse := by
  induction fs generalizing st with
  | nil => exact ⟨[], rfl, rfl⟩
  | cons f rest ih =>
    rw [applyFields_cons]
    obtain ⟨pre, hval, hkeys⟩ := ih
      { st with
        values :=
          (f.key,
            f.apply tr.view (tr.startState.values.lookup f.key) st.view)
            :: st.values }
    refine ⟨pre ++
      [(f.key,
        f.apply tr.view (tr.startState.values.lookup f.key) st.view)],
      ?_, ?_⟩
    · rw [hval]
      simp
    · simp [hkeys]

/-- Association-list lookup skips a prefix containing no matching key. -/
theorem lookup_append_of_not_mem {β : Type} (k : Nat)
    (l1 l2 : List (Nat × β)) (h : k ∉ l1.map Prod.fst) :
    (l1 ++ l2).lookup k = l2.lookup k := by
  induction l1 with
  | nil => rfl
  | cons e rest ih =>
    simp only [List.map_cons, List.mem_cons] at h
    push_neg at h
    obtain ⟨h1, h2⟩ := h
    cases e with
    | mk a b =>
      have hne : (k == a) = false := by
        simpa using h1
      simp only [List.cons_append, List.lookup_cons, hne]
      exact ih h2

/-- During `Transaction.apply`, the `i`-th configured field's slot of the
resulting state holds exactly the result of that field's `apply` rule,
invoked with the transaction, the field's value taken from the start
state, and the intermediate new state in which only the earlier fields
have run. -/
theorem apply_lookup {V : Type} (tr : Transaction V)
    (hkeys : (tr.startState.config.fields.map StateField.key).Nodup)
    (i : Nat) (hi : i < tr.startState.config.fields.length) :
    tr.apply.values.lookup ((tr.startState.config.fields.get ⟨i, hi⟩).key) =
      some ((tr.startState.config.fields.get ⟨i, hi⟩).apply tr.view
        (tr.startState.values.lookup
          ((tr.startState.config.fields.get ⟨i, hi⟩).key))
        ((tr.applyUpTo i).view)) := by
  have hsplit : tr.startState.config.fields =
      (tr.startState.config.fields.take i ++
        [tr.startState.config.fields.get ⟨i, hi⟩]) ++
        tr.startState.config.fields.drop (i + 1) := by
    rw [← List.concat_eq_append, List.get_eq_getElem, List.take_concat_get,
      List.take_append_drop]
  have happly : tr.apply =
      tr.applyFields (tr.startState.config.fields.drop (i + 1))
        (tr.applyFields [tr.startState.config.fields.get ⟨i, hi⟩]
          (tr.applyUpTo i)) := by
    conv_lhs =>
      rw [show tr.apply = tr.applyFields tr.startState.config.fields
        ⟨tr.startState.config, tr.doc, tr.selection, []⟩ from rfl, hsplit]
    rw [applyFields_append, applyFields_append]
    rfl
  have hstep : (tr.applyFields [tr.startState.config.fields.get ⟨i, hi⟩]
      (tr.applyUpTo i)).values =
      ((tr.startState.config.fields.get ⟨i, hi⟩).key,
        (tr.startState.config.fields.get ⟨i, hi⟩).apply tr.view
          (tr.startState.values.lookup
            ((tr.startState.config.fields.get ⟨i, hi⟩).key))
          ((tr.applyUpTo i).view)) :: (tr.applyUpTo i).values :=
    rfl
  obtain ⟨pre, hval, hpkeys⟩ := applyFields_values tr
    (tr.startState.config.fields.drop (i + 1))
    (tr.applyFields [tr.startState.config.fields.get ⟨i, hi⟩]
      (tr.applyUpTo i))
  have hnotmem : (tr.startState.config.fields.get ⟨i, hi⟩).key ∉
      pre.map Prod.fst := by
    rw [hpkeys, List.mem_reverse]
    intro hmem
    rw [show (tr.startState.config.fields.drop (i + 1)).map
        StateField.key =
        (tr.startState.config.fields.map StateField.key).drop (i + 1)
      from List.map_drop ..] at hmem
    obtain ⟨j, hj⟩ := List.mem_iff_get.1 hmem
    have hjlen : (i + 1) + j.1 <
        (tr.startState.config.fields.map StateField.key).length := by
      have := j.2
      simp only [List.length_drop] at this
      omega
    have hKi : (tr.startState.config.fields.map StateField.key).get
        ⟨i, by simpa using hi⟩ =
        (tr.startState.config.fields.get ⟨i, hi⟩).key := by
      simp [List.get_eq_getElem, List.getElem_map]
    have hKj : (tr.startState.config.fields.map StateField.key).get
        ⟨(i + 1) + j.1, hjlen⟩ =
        (tr.startState.config.fields.get ⟨i, hi⟩).key := by
      rw [← hj]
      simp only [List.get_eq_getElem, List.getElem_drop]
    have hj2 := (List.Nodup.get_inj_iff hkeys).1 (hKj.trans hKi.symm)
    simp only [Fin.mk.injEq] at hj2
    omega
  rw [happly, hval, hstep, lookup_append_of_not_mem _ _ _ hnotmem]
  simp [List.lookup_cons]

/-- C4 counterexample: during `Transaction.apply` a later field CAN observe
an earlier field's new value.  In `twoFieldTr`, field 0's old value is 10
and its `apply` produces 11; field 1's `apply` ignores the transaction and
its own old value (20) and reads slot 0 of the new state it is handed —
and ends up with 11, field 0's value computed during the same pass. -/
theorem apply_observes_new_value_counterexample :
    twoFieldTr.startState.values.lookup 0 = some 10 ∧
    twoFieldTr.startState.values.lookup 1 = some 20 ∧
    twoFieldTr.apply.values.lookup 0 = some 11 ∧
    twoFieldTr.apply.values.lookup 1 = some 11 ∧
    fieldSpy.apply twoFieldTr.view (some 20)
      ⟨Text.ofString "ab", Selection.defaultSel, []⟩ = -7 ∧
    fieldSpy.apply twoFieldTr.view (some 20)
      ⟨Text.ofString "ab", Selection.defaultSel, [(0, 10)]⟩ = 10 := by
  refine ⟨?_, ?_, ?_, ?_, ?_, ?_⟩ <;> rfl

/-- C4 (amended): the fields' `apply` rules run in the `Configuration`'s
field order, each invoked with the field's value from the start state and
the transaction; the new state handed to the `i`-th rule is the
intermediate state in which exactly the earlier fields (those before `i`
in configuration order) have already written their new values, so earlier
new values are observable and later slots are still unset. -/
theorem apply_field_order_amended {V : Type} (tr : Transaction V)
    (hkeys : (tr.startState.config.fields.map StateField.key).Nodup)
    (i : Nat) (hi : i < tr.startState.config.fields.length) :
    tr.apply.doc = tr.doc ∧
    tr.apply.selection = tr.selection ∧
    tr.apply.values.lookup ((tr.startState.config.fields.get ⟨i, hi⟩).key) =
      some ((tr.startState.config.fields.get ⟨i, hi⟩).apply tr.view
        (tr.startState.values.lookup
          ((tr.startState.config.fields.get ⟨i, hi⟩).key))
        ((tr.applyUpTo i).view)) ∧
    (tr.applyUpTo i).values.map Prod.fst =
      ((tr.startState.config.fields.take i).map StateField.key).reverse ∧
    (tr.applyUpTo i).doc = tr.doc ∧
    (tr.applyUpTo i).selection = tr.selection := by
  refine ⟨(applyFields_frame ..).1, (applyFields_frame ..).2.1,
    apply_lookup tr hkeys i hi, ?_, (applyFields_frame ..).1,
    (applyFields_frame ..).2.1⟩
  obtain ⟨pre, hval, hpk⟩ := applyFields_values tr
    (tr.startState.config.fields.take i)
    ⟨tr.startState.config, tr.doc, tr.selection, []⟩
  have hv : (tr.applyUpTo i).values = pre := by
    rw [show (tr.applyUpTo i).values = pre ++ [] from hval]
    simp
  rw [hv, hpk]

/-- Witness for C4 (amended): on `twoFieldTr`, field 1 (index 1) is fed the
intermediate state whose only entry is field 0's new value. -/
theorem apply_field_order_amended_witness :
    twoFieldTr.apply.doc = twoFieldTr.doc ∧
    twoFieldTr.apply.selection = twoFieldTr.selection ∧
    twoFieldTr.apply.values.lookup 1 = some 11 ∧
    (twoFieldTr.applyUpTo 1).values.map Prod.fst = [0] ∧
    (twoFieldTr.applyUpTo 1).doc = twoFieldTr.doc ∧
    (twoFieldTr.applyUpTo 1).selection = twoFieldTr.selection := by
  have h := apply_field_order_amended twoFieldTr (by decide) 1 (by decide)
  exact ⟨h.1, h.2.1, (h.2.2.1).trans (by rfl), (h.2.2.2.1).trans (by rfl),
    h.2.2.2.2.1, h.2.2.2.2.2⟩

/-- C8: a transaction with zero accumulated changes and a never-set
selection commits to a state with the start state's document and
selection, while every configured field's `apply` rule is still invoked
once with the transaction and the field's old value. -/
theorem apply_identity_frame {V : Type} (tr : Transaction V)
    (hr : Reachable tr) (hc : tr.changes = [])
    (hs : tr.selectionSet = false)
    (hkeys : (tr.startState.config.fields.map StateField.key).Nodup) :
    tr.apply.doc = tr.startState.doc ∧
    tr.apply.selection = tr.startState.selection ∧
    ∀ i (hi : i < tr.startState.config.fields.length),
      tr.apply.values.lookup
          ((tr.startState.config.fields.get ⟨i, hi⟩).key) =
        some ((tr.startState.config.fields.get ⟨i, hi⟩).apply tr.view
          (tr.startState.values.lookup
            ((tr.startState.config.fields.get ⟨i, hi⟩).key))
          ((tr.applyUpTo i).view)) := by
  have hdocs : tr.docs = [] := by
    have hlen := (reachable_docs_inv hr).1
    rw [hc] at hlen
    exact List.length_eq_zero.1 hlen
  have hdoc : tr.doc = tr.startState.doc := by
    rw [(reachable_docs_inv hr).2.2, hdocs]
    rfl
  have hflag : tr.flags &&& 1 = 0 := by
    have hs2 := hs
    simp only [Transaction.selectionSet, bne_eq_false_iff_eq] at hs2
    exact hs2
  have hsel : tr.selection = tr.startState.selection :=
    reachable_selection_unset hr hc hflag
  exact ⟨(applyFields_frame ..).1.trans hdoc,
    (applyFields_frame ..).2.1.trans hsel,
    fun i hi => apply_lookup tr hkeys i hi⟩

/-- Witness for C8: the empty transaction over `oneFieldState` keeps doc
and selection and still runs `fieldInc`, turning its old value 1 into 2. -/
theorem apply_identity_frame_witness :
    (Transaction.start oneFieldState 0).apply.doc = oneFieldState.doc ∧
    (Transaction.start oneFieldState 0).apply.selection =
      oneFieldState.selection ∧
    (Transaction.start oneFieldState 0).apply.values.lookup 0 = some 2 := by
  have h := apply_identity_frame (Transaction.start oneFieldState 0)
    (Reachable.start _ _) rfl rfl (by decide)
  exact ⟨h.1, h.2.1, (h.2.2 0 (by decide)).trans (by rfl)⟩
